import Mathlib

/-!
Verification of the melo front-end pipeline.

Shallow embedding of the two core source files:
  * `src/sequencing/mod.rs` — the sequencer `sequence_pieces` (validation,
    LCM time-base computation, per-stave and per-bar note resolution,
    octave transposition with range detection, stable per-voice sorting);
  * `src/parse/mod.rs` — the structural parser over a UTF-8 byte buffer.

The sequencer's input and output data types (`parsing::data`,
`sequencing/data.rs`, `sequencing/error.rs`) and the `notes::lcm` utility
live outside the two given source files; they are modelled from the spec
where indicated.  Machine integers are embedded as `Nat`/`Int`; the `i8`
pitch range is made explicit where the source uses `checked_add`.
-/

/-- Modelled from the spec: the stave-token interface produced by the
external lexer collaborator (`NoteNode` of `parsing::data`): an ordered
sequence of Rest, Extension and Note tokens, each with an unsigned length
in the DSL's abstract duration unit; a Note carries an `i8` midi pitch. -/
inductive NoteNode where
  | rest (len : Nat)
  | extensionOf (len : Nat)
  | note (midi : Int) (len : Nat)
deriving DecidableEq

/-- Length of a token, `NoteNode::length()` in the source. -/
def NoteNode.length : NoteNode → Nat
  | .rest l => l
  | .extensionOf l => l
  | .note _ l => l

/-- Modelled from the spec: one bar of lexed tokens (`BarNode` of
`parsing::data`), delimited at the source text's bar boundaries. -/
structure BarNode where
  notes : List NoteNode
deriving DecidableEq

/-- Modelled from the spec: one stave of bars (`StaveNode` of
`parsing::data`). -/
structure StaveNode where
  bars : List BarNode
deriving DecidableEq

/-- Modelled from the spec: a play block binding staves to a voice by
optional name (`PlayNode` of `parsing::data`). -/
structure PlayNode where
  voice : Option String
  staves : List StaveNode
deriving DecidableEq

/-- Modelled from the spec: a declared voice with optional playback
attributes (`VoiceNode` of `parsing::data`); `octave` is the raw octave
step count, `volume` the raw parsed `u8`. -/
structure VoiceNode where
  name : String
  channel : Option Nat
  program : Option Nat
  octave : Option Int
  volume : Option Nat
deriving DecidableEq

/-- Modelled from the spec: a parsed piece as consumed by the sequencer
(`PieceNode` of `parsing::data`). -/
structure PieceNode where
  title : Option String
  composer : Option String
  tempo : Option Nat
  beats : Option Nat
  voices : List VoiceNode
  plays : List PlayNode
deriving DecidableEq

/-- A resolved note (`Note` of `sequencing/data.rs`): midi pitch, length
and absolute position in divisions. -/
structure Note where
  midi : Int
  length : Nat
  position : Nat
deriving DecidableEq

/-- Modelled from the spec: a resolved voice (`Voice` of
`sequencing/data.rs`) with its defaulted attributes, volume normalised as
a rational, the resolved time base `divisionsPerBar` and the note list.
Field defaults model `Voice::default()`. -/
structure Voice where
  name : String := ""
  channel : Nat := 1
  program : Nat := 0
  octave : Int := 0
  volume : Option ℚ := none
  divisionsPerBar : Nat := 1
  notes : List Note := []
deriving DecidableEq

/-- Modelled from the spec: a resolved piece (`Piece` of
`sequencing/data.rs`); field defaults model `Piece::default()`, with the
fixed default tempo and beats used when the source sets none. -/
structure Piece where
  title : Option String := none
  composer : Option String := none
  tempo : Nat := 120
  beats : Nat := 4
  voices : List Voice := []
deriving DecidableEq

/-- The semantic error kinds of `sequencing/error.rs`. -/
inductive ErrorType where
  | undeclaredVoice (voiceName : String)
  | voicelessPlayBlock
  | invalidNote (midi : Int) (octaveOffset : Int)
deriving DecidableEq

/-- A sequencing error with the (placeholder) source position the code
attaches. -/
structure SequencingError where
  line : Nat
  col : Nat
  error : ErrorType
deriving DecidableEq

/-- Modelled from the spec: the external `notes::lcm` least-common-multiple
utility, embedded as the mathematical lcm on `Nat`. -/
def lcm' (a b : Nat) : Nat := Nat.lcm a b

/-- Total note-length of a bar:
`bar.notes.iter().map(|note| note.length()).sum()`. -/
def barLength (bar : BarNode) : Nat := (bar.notes.map NoteNode.length).sum

/-- The bar lengths gathered for one voice, from
`piece_node.plays.iter().filter(...).flat_map(...)` in `sequence_pieces`:
every bar of every stave of every play bound to the voice by name. -/
def voiceBarLengths (voiceName : String) (plays : List PlayNode) : List Nat :=
  (plays.filter (fun p => p.voice == some voiceName)).flatMap
    (fun p => p.staves.flatMap (fun s => s.bars.map barLength))

/-- The running scan state of one stave resolution: the voice's
accumulated notes (`voice.notes`), the `previous_note_exists` flag and the
`cursor`. -/
structure ScanState where
  notes : List Note
  previousNoteExists : Bool
  cursor : Nat
deriving DecidableEq

/-- Add `d` to the length of the last accumulated note:
`voice.notes.last_mut().trust(); previous_note.length += ...` in the
source (the `trust()` unwrap is total here; it is only ever reached with a
nonempty list). -/
def bumpLast : List Note → Nat → List Note
  | [], _ => []
  | [n], d => [{ n with length := n.length + d }]
  | n :: ns, d => n :: bumpLast ns d

/-- One token step of the `for note_node in &bar_node.notes` loop of
`sequence_pieces`.  A Rest clears `previous_note_exists` and advances the
cursor; an Extension lengthens the last note when the flag is set and
advances the cursor either way; a Note resolves its pitch by
`midi.checked_add(octave * 12)` over the `i8` range, appends a new note at
the cursor and advances it. -/
def processNote (octave : Int) (noteScale : Nat) (st : ScanState) :
    NoteNode → Except SequencingError ScanState
  | .rest len =>
    .ok { st with previousNoteExists := false, cursor := st.cursor + noteScale * len }
  | .extensionOf len =>
    .ok { st with
          notes := if st.previousNoteExists then bumpLast st.notes (noteScale * len) else st.notes,
          cursor := st.cursor + noteScale * len }
  | .note midi len =>
    let resolved := midi + octave * 12
    if -128 ≤ resolved ∧ resolved ≤ 127 then
      .ok { notes := st.notes ++ [{ midi := resolved, length := noteScale * len, position := st.cursor }],
            previousNoteExists := true,
            cursor := st.cursor + noteScale * len }
    else
      .error { line := 12345, col := 12345, error := .invalidNote midi octave }

/-- The token loop over one bar's notes. -/
def processNotes (octave : Int) (noteScale : Nat) (st : ScanState) :
    List NoteNode → Except SequencingError ScanState
  | [] => .ok st
  | t :: ts =>
    match processNote octave noteScale st t with
    | .error e => .error e
    | .ok st' => processNotes octave noteScale st' ts

/-- One bar of the `for (index, bar_node) in stave_node.bars.iter().enumerate()`
loop: the cursor restarts at `index * divisions_per_bar`, the note scale is
`divisions_per_bar / bar_length` (the guarding
`assert!(divisions_per_bar % bar_node_length == 0)` is discharged by the
exactness theorem below), and the bar's tokens are consumed. -/
def processBar (octave : Int) (divisions index : Nat) (notes : List Note) (prev : Bool)
    (bar : BarNode) : Except SequencingError (List Note × Bool) :=
  let noteScale := divisions / barLength bar
  match processNotes octave noteScale
      { notes := notes, previousNoteExists := prev, cursor := index * divisions } bar.notes with
  | .error e => .error e
  | .ok st => .ok (st.notes, st.previousNoteExists)

/-- The bar loop of one stave; `previous_note_exists` is threaded across
bar boundaries. -/
def processBars (octave : Int) (divisions index : Nat) (notes : List Note) (prev : Bool) :
    List BarNode → Except SequencingError (List Note × Bool)
  | [] => .ok (notes, prev)
  | b :: bs =>
    match processBar octave divisions index notes prev b with
    | .error e => .error e
    | .ok (notes', prev') => processBars octave divisions (index + 1) notes' prev' bs

/-- One stave: `previous_note_exists` starts out false
(`let mut previous_note_exists = false;`) and is discarded at the end of
the stave. -/
def processStave (octave : Int) (divisions : Nat) (notes : List Note) (stave : StaveNode) :
    Except SequencingError (List Note) :=
  match processBars octave divisions 0 notes false stave.bars with
  | .error e => .error e
  | .ok (notes', _) => .ok notes'

/-- The stave loop of one play. -/
def processStaves (octave : Int) (divisions : Nat) (notes : List Note) :
    List StaveNode → Except SequencingError (List Note)
  | [] => .ok notes
  | s :: ss =>
    match processStave octave divisions notes s with
    | .error e => .error e
    | .ok notes' => processStaves octave divisions notes' ss

/-- The position keys occurring in a note list, in ascending order without
duplicates. -/
def posKeys (l : List Note) : List Nat :=
  ((l.map Note.position).dedup).insertionSort (· ≤ ·)

/-- Embedding of Rust's stable `voice.notes.sort_by_key(|note| note.position)`:
the blocks of equal-position notes, in source order, concatenated in
ascending key order.  This is extensionally the unique stable sort by
position (sortedness, permutation and stability are proved below). -/
def stableSortByPos (l : List Note) : List Note :=
  (posKeys l).flatMap (fun k => l.filter (fun n => n.position == k))

/-- The play loop of one voice: plays not bound to the voice are skipped
(`continue`), and after each bound play's staves the accumulated notes are
stable-sorted by position. -/
def processPlays (voiceName : String) (octave : Int) (divisions : Nat) (notes : List Note) :
    List PlayNode → Except SequencingError (List Note)
  | [] => .ok notes
  | p :: ps =>
    if p.voice == some voiceName then
      match processStaves octave divisions notes p.staves with
      | .error e => .error e
      | .ok notes' => processPlays voiceName octave divisions (stableSortByPos notes') ps
    else processPlays voiceName octave divisions notes ps

/-- Follows the spec's words (for comparison with `processPlays`): the
resolved notes of a voice in the order they are encountered during
resolution, i.e. the same play loop without any sorting. -/
def processPlaysEncounterOrder (voiceName : String) (octave : Int) (divisions : Nat)
    (notes : List Note) : List PlayNode → Except SequencingError (List Note)
  | [] => .ok notes
  | p :: ps =>
    if p.voice == some voiceName then
      match processStaves octave divisions notes p.staves with
      | .error e => .error e
      | .ok notes' => processPlaysEncounterOrder voiceName octave divisions notes' ps
    else processPlaysEncounterOrder voiceName octave divisions notes ps

/-- Resolution of one voice of `sequence_pieces`: attribute defaulting,
volume normalisation by `f64::from(vol) / 127.0` (embedded over `ℚ`), the
LCM fold `.fold(1, lcm)` for `divisions_per_bar`, and the play loop. -/
def buildVoice (plays : List PlayNode) (vn : VoiceNode) : Except SequencingError Voice :=
  let d : Voice := {}
  let octave := vn.octave.getD d.octave
  let divisions := (voiceBarLengths vn.name plays).foldl lcm' 1
  match processPlays vn.name octave divisions [] plays with
  | .error e => .error e
  | .ok notes =>
    .ok { name := vn.name,
          channel := vn.channel.getD d.channel,
          program := vn.program.getD d.program,
          octave := octave,
          volume := vn.volume.map (fun vol => (vol : ℚ) / 127),
          divisionsPerBar := divisions,
          notes := notes }

/-- The voice loop of one piece. -/
def buildVoices (plays : List PlayNode) : List VoiceNode → Except SequencingError (List Voice)
  | [] => .ok []
  | v :: vs =>
    match buildVoice plays v with
    | .error e => .error e
    | .ok voice =>
      match buildVoices plays vs with
      | .error e => .error e
      | .ok voices => .ok (voice :: voices)

/-- `Some(voice.name) == play.voice` for some declared voice: the binding
check of the validation loop. -/
def playMatched (voices : List VoiceNode) (p : PlayNode) : Bool :=
  voices.any (fun voice => some voice.name == p.voice)

/-- The whole-piece validation block of `sequence_pieces`: the first play
not matching any declared voice aborts with `UndeclaredVoice` (named play)
or `VoicelessPlayBlock` (anonymous play), with the placeholder position
the code attaches. -/
def validatePiece (pn : PieceNode) : Except SequencingError Unit :=
  match pn.plays.find? (fun p => !(playMatched pn.voices p)) with
  | some p =>
    .error { line := 123456789, col := 123456789,
             error := match p.voice with
                      | some voiceName => .undeclaredVoice voiceName
                      | none => .voicelessPlayBlock }
  | none => .ok ()

/-- One piece of `sequence_pieces`: validation first, then attribute
resolution against `Piece::default()`, then the voice loop. -/
def sequencePiece (pn : PieceNode) : Except SequencingError Piece :=
  match validatePiece pn with
  | .error e => .error e
  | .ok _ =>
    let d : Piece := {}
    match buildVoices pn.plays pn.voices with
    | .error e => .error e
    | .ok voices =>
      .ok { title := pn.title.or d.title,
            composer := pn.composer.or d.composer,
            tempo := pn.tempo.getD d.tempo,
            beats := pn.beats.getD d.beats,
            voices := voices }

/-- `sequence_pieces`: the piece loop; the first error aborts the whole
call, otherwise all resolved pieces are returned. -/
def sequencePieces : List PieceNode → Except SequencingError (List Piece)
  | [] => .ok []
  | pn :: pns =>
    match sequencePiece pn with
    | .error e => .error e
    | .ok piece =>
      match sequencePieces pns with
      | .error e => .error e
      | .ok pieces => .ok (piece :: pieces)

namespace Parse

/-!
Embedding of `src/parse/mod.rs`.  The Rust `Parser` holds a byte buffer
and a forward-moving cursor; since scanning never moves backwards, the
state is embedded as the remaining byte suffix (a `List Nat` of byte
values), and returned spans are byte lists.  The top-level `parse` loop
does not terminate on some inputs (it can loop without consuming input),
so every looping function takes a fuel argument and returns `none` when
fuel runs out; `some` results are exactly the results of the Rust code.
-/

/-- The parse tree `Stave`; the source field is named `prefix`, which is
not a usable identifier here, so it is called `label`. -/
structure Stave where
  label : Option (List Nat)
deriving DecidableEq

/-- The parse tree `GrandStave`. -/
structure GrandStave where
  staves : List Stave
deriving DecidableEq

/-- The parse tree `Play`. -/
structure Play where
  name : Option (List Nat)
  grandStaves : List GrandStave
deriving DecidableEq

/-- The parse tree `Voice`; `transpose` holds the parsed octave times 12. -/
structure Voice where
  name : Option (List Nat)
  program : Option Int
  channel : Option Int
  transpose : Option Int
  volume : Option Int
  drums : Option Bool
deriving DecidableEq

/-- The parse tree `Piece`. -/
structure Piece where
  title : Option (List Nat) := none
  composer : Option (List Nat) := none
  tempo : Option Int := none
  beats : Option Int := none
  voices : List Voice := []
  plays : List Play := []
deriving DecidableEq

/-- The parse tree root. -/
structure ParseTree where
  pieces : List Piece
deriving DecidableEq

/-- ASCII bytes of a string (all source constants are ASCII). -/
def strBytes (s : String) : List Nat := s.data.map Char.toNat

/-- `is_whitespace`: space, tab or carriage return. -/
def isWhitespace (ch : Nat) : Bool := ch == 32 || ch == 9 || ch == 13

/-- `Parser::finished`. -/
def finished (rest : List Nat) : Bool := rest.isEmpty

/-- `Parser::check`: the next bytes equal `next`. -/
def check : List Nat → List Nat → Bool
  | [], _ => true
  | _ :: _, [] => false
  | n :: ns, c :: cs => n == c && check ns cs

/-- `Parser::skip_only`: consume `next` when it is present. -/
def skipOnly (next rest : List Nat) : Bool × List Nat :=
  if check next rest then (true, rest.drop next.length) else (false, rest)

/-- The loop body of `Parser::skip_whitespace`: a `//` comment runs to and
including the next newline; whitespace and comment bytes are consumed. -/
def skipWhitespaceAux : Bool → List Nat → List Nat
  | _, 47 :: 47 :: rest => skipWhitespaceAux true rest
  | _, 10 :: rest => skipWhitespaceAux false rest
  | inComment, c :: rest =>
    if inComment || isWhitespace c then skipWhitespaceAux inComment rest else c :: rest
  | _, [] => []

/-- `Parser::skip_whitespace`. -/
def skipWhitespace (rest : List Nat) : List Nat := skipWhitespaceAux false rest

/-- The loop body of `Parser::skip_whitespace_in_line`: stops at a newline
without consuming it. -/
def skipWhitespaceInLineAux : Bool → List Nat → List Nat
  | _, 47 :: 47 :: rest => skipWhitespaceInLineAux true rest
  | inComment, c :: rest =>
    if c == 10 then c :: rest
    else if inComment || isWhitespace c then skipWhitespaceInLineAux inComment rest
    else c :: rest
  | _, [] => []

/-- `Parser::skip_whitespace_in_line`. -/
def skipWhitespaceInLine (rest : List Nat) : List Nat := skipWhitespaceInLineAux false rest

/-- `Parser::skip`: consume `next` and trailing whitespace when present. -/
def skip (next rest : List Nat) : Bool × List Nat :=
  if check next rest then (true, skipWhitespace (rest.drop next.length)) else (false, rest)

/-- `Parser::expect`. -/
def expect (next rest : List Nat) : Except String (List Nat) :=
  if finished rest then
    .error "Expected token but reached the end of the file."
  else
    match skip next rest with
    | (true, rest') => .ok rest'
    | (false, _) => .error "Expected one token but saw another"

/-- `is_ident_char` of `Parser::check_keyword`: letters, digits or
underscore. -/
def isIdentChar (ch : Nat) : Bool :=
  ch == 95 || (97 ≤ ch && ch ≤ 122) || (65 ≤ ch && ch ≤ 90) || (48 ≤ ch && ch ≤ 57)

/-- `Parser::check_keyword`: the keyword bytes are present and the byte
after them, if any, is not an identifier character. -/
def checkKeyword (keyword rest : List Nat) : Bool :=
  check keyword rest &&
    (match rest.drop keyword.length with
     | [] => true
     | c :: _ => !isIdentChar c)

/-- `Parser::skip_keyword`. -/
def skipKeyword (keyword rest : List Nat) : Bool × List Nat :=
  if checkKeyword keyword rest then (true, skipWhitespace (rest.drop keyword.length))
  else (false, rest)

/-- `is_attr_char` of `Parser::check_attr`: letters, digits, underscore,
comma, apostrophe or hash. -/
def isAttrChar (ch : Nat) : Bool :=
  ch == 95 || ch == 44 || ch == 39 || ch == 35 ||
    (97 ≤ ch && ch ≤ 122) || (65 ≤ ch && ch ≤ 90) || (48 ≤ ch && ch ≤ 57)

/-- `Parser::check_attr`: the longest nonempty run of attribute
characters, if any. -/
def checkAttr (rest : List Nat) : Option (List Nat) :=
  let a := rest.takeWhile isAttrChar
  if a.isEmpty then none else some a

/-- `Parser::parse_attr`. -/
def parseAttr (rest : List Nat) : Option (List Nat) × List Nat :=
  match checkAttr rest with
  | some a => (some a, skipWhitespace (rest.drop a.length))
  | none => (none, rest)

/-- `is_digit` of `Parser::parse_number_only`. -/
def isDigit (ch : Nat) : Bool := 48 ≤ ch && ch ≤ 57

/-- The byte run scanned by `Parser::parse_number_only`: an optional
leading minus sign, then digits. -/
def numScan (rest : List Nat) : List Nat :=
  match rest with
  | 45 :: t => 45 :: t.takeWhile isDigit
  | _ => rest.takeWhile isDigit

/-- Digits to their decimal value. -/
def digitsToNat (l : List Nat) : Nat := l.foldl (fun a c => 10 * a + (c - 48)) 0

/-- `Parser::parse_number_only::<T>` where `[lo, hi]` is the range of the
target integer type: scan the run, then parse it, failing on an empty or
sign-only run or an out-of-range value; no trailing whitespace is
consumed. -/
def parseNumberOnly (lo hi : Int) (rest : List Nat) : Except String (Int × List Nat) :=
  let s := numScan rest
  match s with
  | [] => .error "Could not parse number"
  | 45 :: ds =>
    if ds.isEmpty then .error "Could not parse number"
    else
      let v : Int := -(digitsToNat ds : Int)
      if lo ≤ v ∧ v ≤ hi then .ok (v, rest.drop s.length) else .error "Could not parse number"
  | ds =>
    let v : Int := (digitsToNat ds : Int)
    if lo ≤ v ∧ v ≤ hi then .ok (v, rest.drop s.length) else .error "Could not parse number"

/-- The character loop of `Parser::parse_string_only` after the opening
quote: backslash escapes the next byte, an unescaped quote closes the
string; the returned span is the raw contents (escapes included). -/
def stringAux (escaping : Bool) (acc : List Nat) : List Nat → Except String (List Nat × List Nat)
  | [] => .error "Unclosed string!"
  | c :: rest =>
    if c == 92 && !escaping then stringAux true (acc ++ [c]) rest
    else if c == 34 && !escaping then .ok (acc, rest)
    else stringAux false (acc ++ [c]) rest

/-- `Parser::parse_string_only`. -/
def parseStringOnly (rest : List Nat) : Except String (List Nat × List Nat) :=
  match rest with
  | [] => .error "Unclosed string!"
  | 34 :: t => stringAux false [] t
  | _ => .error "String must open with a quote"

/-- `Parser::parse_bool_only`. -/
def parseBoolOnly (rest : List Nat) : Except String (Bool × List Nat) :=
  match skipKeyword (strBytes "true") rest with
  | (true, rest') => .ok (true, rest')
  | (false, _) =>
    match skipKeyword (strBytes "false") rest with
    | (true, rest') => .ok (false, rest')
    | (false, _) => .error "Failed to parse bool."

/-- `Parser::skip_end_of_stave`: end of input, a consumed newline or
semicolon, or an upcoming closing brace. -/
def skipEndOfStave (rest : List Nat) : Bool × List Nat :=
  match rest with
  | [] => (true, [])
  | 10 :: t => (true, t)
  | 59 :: t => (true, t)
  | 125 :: _ => (true, rest)
  | _ => (false, rest)

/-- `Parser::skip_stave_contents`: consume bytes until `skip_end_of_stave`
succeeds. -/
def skipStaveContents : List Nat → List Nat
  | [] => []
  | 10 :: t => t
  | 59 :: t => t
  | 125 :: t => 125 :: t
  | _ :: t => skipStaveContents t

/-- Sequencing of fallible, possibly fuel-starved parse steps. -/
def obind : Option (Except String α) → (α → Option (Except String β)) → Option (Except String β)
  | none, _ => none
  | some (.error e), _ => some (.error e)
  | some (.ok a), f => f a

/-- Lift an infallible-fuel step. -/
def olift (x : Except String α) : Option (Except String α) := some x

/-- `parse_stave_contents`: skip the raw stave body (tokenised by the
external lexer at this boundary), continuing the same stave across an
unescaped bar continuation. -/
def parseStaveContents : Nat → Option (List Nat) → List Nat → Option (Except String (Stave × List Nat))
  | 0, _, _ => none
  | fuel + 1, stavePrefix, rest =>
    let r1 := skipStaveContents rest
    let r2 := skipWhitespaceInLine r1
    match skipOnly (strBytes "|") r2 with
    | (true, r3) => parseStaveContents fuel stavePrefix r3
    | (false, _) => some (.ok ({ label := stavePrefix }, r2))

/-- The continuation loop of `parse_grand_stave`. -/
def parseGrandStaveLoop : Nat → GrandStave → List Nat → Option (Except String (GrandStave × List Nat))
  | 0, _, _ => none
  | fuel + 1, gs, rest =>
    match skipEndOfStave rest with
    | (true, r1) => some (.ok (gs, skipWhitespace r1))
    | (false, _) =>
      let (attrName, r1) := parseAttr rest
      match skip (strBytes ":") r1 with
      | (true, r2) =>
        match skipOnly (strBytes "|") r2 with
        | (true, r3) =>
          obind (parseStaveContents fuel attrName (skipWhitespaceInLine r3)) (fun (stave, r4) =>
            parseGrandStaveLoop fuel { gs with staves := gs.staves ++ [stave] } r4)
        | (false, _) => some (.error "Cannot set attributes from within a grand stave")
      | (false, _) =>
        match attrName with
        | some _ => some (.error "Attribute is missing a value.")
        | none => some (.ok (gs, rest))

/-- `parse_grand_stave`. -/
def parseGrandStave (fuel : Nat) (firstStavePrefix : Option (List Nat)) (rest : List Nat) :
    Option (Except String (GrandStave × List Nat)) :=
  obind (parseStaveContents fuel firstStavePrefix (skipWhitespaceInLine rest)) (fun (stave, r1) =>
    parseGrandStaveLoop fuel { staves := [stave] } r1)

/-- The loop of `parse_play_contents`. -/
def parsePlayLoop : Nat → Play → List Nat → Option (Except String (Play × List Nat))
  | 0, _, _ => none
  | fuel + 1, play, rest =>
    let (attrName, r1) := parseAttr rest
    match skip (strBytes ":") r1 with
    | (true, r2) =>
      match skipOnly (strBytes "|") r2 with
      | (true, r3) =>
        obind (parseGrandStave fuel attrName r3) (fun (gs, r4) =>
          parsePlayLoop fuel { play with grandStaves := play.grandStaves ++ [gs] } r4)
      | (false, _) =>
        some (.error "Attributes in play blocks not currently supported. Use a bar to start a stave.")
    | (false, _) =>
      match attrName with
      | some _ => some (.error "Attribute is missing a value.")
      | none => some (.ok (play, skipWhitespace rest))

/-- `parse_play_contents`. -/
def parsePlayContents (fuel : Nat) (name : Option (List Nat)) (rest : List Nat) :
    Option (Except String (Play × List Nat)) :=
  parsePlayLoop fuel { name := name, grandStaves := [] } rest

/-- The attribute loop of `parse_voice_contents`; the `octave` value is an
`i8` scaled by 12 into a semitone transpose, `program`/`channel`/`volume`
are `u8`, `drums` is a boolean. -/
def parseVoiceLoop : Nat → Voice → List Nat → Option (Except String (Voice × List Nat))
  | 0, _, _ => none
  | fuel + 1, voice, rest =>
    match parseAttr rest with
    | (none, _) => some (.ok (voice, rest))
    | (some attrName, r1) =>
      obind (olift (expect (strBytes ":") r1)) (fun r2 =>
        obind
          (if attrName = strBytes "program" then
            obind (olift (parseNumberOnly 0 255 r2)) (fun (v, r3) =>
              some (.ok ({ voice with program := some v }, r3)))
          else if attrName = strBytes "channel" then
            obind (olift (parseNumberOnly 0 255 r2)) (fun (v, r3) =>
              some (.ok ({ voice with channel := some v }, r3)))
          else if attrName = strBytes "octave" then
            obind (olift (parseNumberOnly (-128) 127 r2)) (fun (v, r3) =>
              some (.ok ({ voice with transpose := some (v * 12) }, r3)))
          else if attrName = strBytes "volume" then
            obind (olift (parseNumberOnly 0 255 r2)) (fun (v, r3) =>
              some (.ok ({ voice with volume := some v }, r3)))
          else if attrName = strBytes "drums" then
            obind (olift (parseBoolOnly r2)) (fun (v, r3) =>
              some (.ok ({ voice with drums := some v }, r3)))
          else some (.error "Invalid attribute name"))
          (fun (voice', r3) =>
            let r4 := skipWhitespaceInLine r3
            match skip (strBytes ",") r4 with
            | (true, r5) => parseVoiceLoop fuel voice' r5
            | (false, _) =>
              match skip (strBytes "\n") r4 with
              | (true, r5) => parseVoiceLoop fuel voice' r5
              | (false, _) =>
                match skip (strBytes ";") r4 with
                | (true, r5) => parseVoiceLoop fuel voice' r5
                | (false, _) => some (.ok (voice', r4))))

/-- `parse_voice_contents`. -/
def parseVoiceContents (fuel : Nat) (name : Option (List Nat)) (rest : List Nat) :
    Option (Except String (Voice × List Nat)) :=
  parseVoiceLoop fuel
    { name := name, program := none, channel := none, transpose := none,
      volume := none, drums := none } rest

/-- The u64 upper bound used for piece `tempo` and `beats` attributes. -/
def u64Max : Int := 18446744073709551615

/-- The loop of `parse_piece_contents`: keyworded `play`/`voice` blocks,
`key: value` piece attributes, and a final implicit anonymous play for any
other remaining content. -/
def parsePieceLoop : Nat → Piece → List Nat → Option (Except String (Piece × List Nat))
  | 0, _, _ => none
  | fuel + 1, piece, rest =>
    match skipKeyword (strBytes "play") rest with
    | (true, r1) =>
      let (name, r2) := parseAttr r1
      obind (olift (expect (strBytes "\x7b") r2)) (fun r3 =>
        obind (parsePlayContents fuel name r3) (fun (play, r4) =>
          obind (olift (expect (strBytes "\x7d") r4)) (fun r5 =>
            parsePieceLoop fuel { piece with plays := piece.plays ++ [play] } r5)))
    | (false, _) =>
      match skipKeyword (strBytes "voice") rest with
      | (true, r1) =>
        let (name, r2) := parseAttr r1
        obind (olift (expect (strBytes "\x7b") r2)) (fun r3 =>
          obind (parseVoiceContents fuel name r3) (fun (voice, r4) =>
            obind (olift (expect (strBytes "\x7d") r4)) (fun r5 =>
              parsePieceLoop fuel { piece with voices := piece.voices ++ [voice] } r5)))
      | (false, _) =>
        match parseAttr rest with
        | (some attrName, r1) =>
          obind (olift (expect (strBytes ":") r1)) (fun r2 =>
            obind
              (if attrName = strBytes "tempo" then
                obind (olift (parseNumberOnly 0 u64Max r2)) (fun (v, r3) =>
                  some (.ok ({ piece with tempo := some v }, r3)))
              else if attrName = strBytes "beats" then
                obind (olift (parseNumberOnly 0 u64Max r2)) (fun (v, r3) =>
                  some (.ok ({ piece with beats := some v }, r3)))
              else if attrName = strBytes "title" then
                obind (olift (parseStringOnly r2)) (fun (v, r3) =>
                  some (.ok ({ piece with title := some v }, r3)))
              else if attrName = strBytes "composer" then
                obind (olift (parseStringOnly r2)) (fun (v, r3) =>
                  some (.ok ({ piece with composer := some v }, r3)))
              else some (.error "Invalid attribute name"))
              (fun (piece', r3) =>
                let r4 := skipWhitespaceInLine r3
                if finished r4 then parsePieceLoop fuel piece' r4
                else
                  match skip (strBytes ",") r4 with
                  | (true, r5) => parsePieceLoop fuel piece' r5
                  | (false, _) =>
                    match skip (strBytes "\n") r4 with
                    | (true, r5) => parsePieceLoop fuel piece' r5
                    | (false, _) =>
                      match skip (strBytes ";") r4 with
                      | (true, r5) => parsePieceLoop fuel piece' r5
                      | (false, _) =>
                        if check (strBytes "\x7d") r4 then parsePieceLoop fuel piece' r4
                        else some (.error "Attributes must end with a newline, comma, or semi-colon.")))
        | (none, _) =>
          let r1 := skipWhitespace rest
          if finished r1 || check (strBytes "\x7d") r1 then some (.ok (piece, r1))
          else
            obind (parsePlayContents fuel none r1) (fun (play, r2) =>
              some (.ok ({ piece with plays := piece.plays ++ [play] }, skipWhitespace r2)))

/-- `parse_piece_contents`. -/
def parsePieceContents (fuel : Nat) (rest : List Nat) :
    Option (Except String (Piece × List Nat)) :=
  parsePieceLoop fuel {} rest

/-- `parse_piece`: an optional `piece { ... }` wrapper around the piece
contents. -/
def parsePiece (fuel : Nat) (rest : List Nat) : Option (Except String (Piece × List Nat)) :=
  match skipKeyword (strBytes "piece") rest with
  | (true, r1) =>
    obind (olift (expect (strBytes "\x7b") r1)) (fun r2 =>
      obind (parsePieceContents fuel r2) (fun (piece, r3) =>
        obind (olift (expect (strBytes "\x7d") r3)) (fun r4 =>
          some (.ok (piece, r4)))))
  | (false, _) => parsePieceContents fuel rest

/-- The top-level loop of `parse`: a piece is parsed and pushed, then the
loop exits only once the input is exhausted (on some inputs this loop
never terminates; fuel exhaustion returns `none`). -/
def parseLoop : Nat → List Nat → List Piece → Option (Except String (List Piece))
  | 0, _, _ => none
  | fuel + 1, rest, acc =>
    obind (parsePiece fuel rest) (fun (piece, r1) =>
      let acc' := acc ++ [piece]
      if finished r1 then some (.ok acc')
      else parseLoop fuel r1 acc')

/-- `parse`: skip leading whitespace, then run the piece loop. -/
def parse (fuel : Nat) (source : List Nat) : Option (Except String ParseTree) :=
  match parseLoop fuel (skipWhitespace source) [] with
  | none => none
  | some (.error e) => some (.error e)
  | some (.ok pieces) => some (.ok { pieces := pieces })

end Parse

/-! ## Theorems -/

theorem dvd_foldl_lcm_init (l : List Nat) (a : Nat) : a ∣ l.foldl lcm' a := by
  induction l generalizing a with
  | nil => exact dvd_rfl
  | cons x xs ih =>
    simpa [List.foldl_cons] using (Nat.dvd_lcm_left a x).trans (ih (lcm' a x))

theorem dvd_foldl_lcm_mem (l : List Nat) (a b : Nat) (hb : b ∈ l) : b ∣ l.foldl lcm' a := by
  induction l generalizing a with
  | nil => cases hb
  | cons x xs ih =>
    rcases List.mem_cons.mp hb with rfl | hb'
    · simpa [List.foldl_cons] using (Nat.dvd_lcm_right a b).trans (dvd_foldl_lcm_init xs (lcm' a b))
    · simpa [List.foldl_cons] using ih (lcm' a x) hb'

theorem foldl_lcm_dvd (l : List Nat) (a m : Nat) (ha : a ∣ m) (h : ∀ b ∈ l, b ∣ m) :
    l.foldl lcm' a ∣ m := by
  induction l generalizing a with
  | nil => exact ha
  | cons x xs ih =>
    simpa [List.foldl_cons] using
      ih (lcm' a x) (Nat.lcm_dvd ha (h x (List.mem_cons_self x xs))) (fun b hb => h b (List.mem_cons_of_mem x hb))

theorem mod_eq_zero_of_dvd' {a b : Nat} (h : b ∣ a) : a % b = 0 := by
  obtain ⟨c, rfl⟩ := h
  exact Nat.mul_mod_right b c

theorem buildVoice_divisions {plays : List PlayNode} {vn : VoiceNode} {voice : Voice}
    (h : buildVoice plays vn = .ok voice) :
    voice.divisionsPerBar = (voiceBarLengths vn.name plays).foldl lcm' 1 := by
  unfold buildVoice at h
  rcases hp : processPlays vn.name (vn.octave.getD (Voice.octave {}))
      ((voiceBarLengths vn.name plays).foldl lcm' 1) [] plays with e | notes <;>
    simp only [hp] at h
  · cases h
  · cases h
    rfl

/-- C1: for every voice in a sequenced piece, `divisions_per_bar` is the
fold of lcm (identity 1) over the total note-length of every bar in every
stave of every play bound to that voice; it is divisible by every gathered
bar length, it is the least such common multiple, and the fold has the
same value over any permutation of the gathered multiset of bar lengths. -/
theorem c1_divisions_per_bar_lcm (plays : List PlayNode) (vn : VoiceNode) (voice : Voice)
    (h : buildVoice plays vn = .ok voice) :
    voice.divisionsPerBar = (voiceBarLengths vn.name plays).foldl lcm' 1 ∧
    (∀ b ∈ voiceBarLengths vn.name plays, voice.divisionsPerBar % b = 0) ∧
    (∀ m : Nat, (∀ b ∈ voiceBarLengths vn.name plays, b ∣ m) → voice.divisionsPerBar ∣ m) ∧
    (∀ l' : List Nat, List.Perm (voiceBarLengths vn.name plays) l' →
      l'.foldl lcm' 1 = voice.divisionsPerBar) := by
  have hd := buildVoice_divisions h
  refine ⟨hd, ?_, ?_, ?_⟩
  · intro b hb
    rw [hd]
    exact mod_eq_zero_of_dvd' (dvd_foldl_lcm_mem _ 1 b hb)
  · intro m hm
    rw [hd]
    exact foldl_lcm_dvd _ 1 m (one_dvd m) hm
  · intro l' hperm
    rw [hd]
    refine Nat.dvd_antisymm ?_ ?_
    · exact foldl_lcm_dvd l' 1 _ (one_dvd _)
        (fun b hb => dvd_foldl_lcm_mem _ 1 b (hperm.mem_iff.mpr hb))
    · exact foldl_lcm_dvd _ 1 _ (one_dvd _)
        (fun b hb => dvd_foldl_lcm_mem l' 1 b (hperm.mem_iff.mp hb))

/-- Closed instance of the LCM characterisation: one voice bound to a play
with bars of lengths 2 and 3 resolves to 6 divisions per bar, and 6 % 2 = 0. -/
theorem c1_divisions_per_bar_lcm_witness :
    buildVoice [⟨some "V", [⟨[⟨[.rest 2]⟩, ⟨[.rest 3]⟩]⟩]⟩] ⟨"V", none, none, none, none⟩ =
      .ok ⟨"V", 1, 0, 0, none, 6, []⟩ ∧
    (⟨"V", 1, 0, 0, none, 6, []⟩ : Voice).divisionsPerBar =
      (voiceBarLengths "V" [⟨some "V", [⟨[⟨[.rest 2]⟩, ⟨[.rest 3]⟩]⟩]⟩]).foldl lcm' 1 ∧
    (⟨"V", 1, 0, 0, none, 6, []⟩ : Voice).divisionsPerBar % 2 = 0 := by
  have h : buildVoice [⟨some "V", [⟨[⟨[.rest 2]⟩, ⟨[.rest 3]⟩]⟩]⟩] ⟨"V", none, none, none, none⟩ =
      .ok ⟨"V", 1, 0, 0, none, 6, []⟩ := rfl
  obtain ⟨h1, h2, -⟩ := c1_divisions_per_bar_lcm _ _ _ h
  exact ⟨h, h1, h2 2 (by simp [voiceBarLengths, barLength, NoteNode.length])⟩

theorem mem_voiceBarLengths {plays : List PlayNode} {vn : VoiceNode} {p : PlayNode}
    {s : StaveNode} {b : BarNode} (hp : p ∈ plays) (hv : p.voice = some vn.name)
    (hs : s ∈ p.staves) (hb : b ∈ s.bars) :
    barLength b ∈ voiceBarLengths vn.name plays := by
  unfold voiceBarLengths
  refine List.mem_flatMap.mpr ⟨p, List.mem_filter.mpr ⟨hp, by simp [hv]⟩, ?_⟩
  exact List.mem_flatMap.mpr ⟨s, hs, List.mem_map.mpr ⟨b, hb, rfl⟩⟩

/-- C6: for every bar of every stave of every play bound to a voice, the
resolved `divisions_per_bar` is an exact multiple of the bar's total
note-length, so the assertion `divisions_per_bar % bar_length == 0`
guarding the scale division holds and the scale factor
`divisions_per_bar / bar_length` is exact. -/
theorem c6_note_scale_exact (plays : List PlayNode) (vn : VoiceNode) (voice : Voice)
    (p : PlayNode) (s : StaveNode) (b : BarNode)
    (h : buildVoice plays vn = .ok voice) (hp : p ∈ plays) (hv : p.voice = some vn.name)
    (hs : s ∈ p.staves) (hb : b ∈ s.bars) :
    voice.divisionsPerBar % barLength b = 0 ∧
    (barLength b ≠ 0 →
      voice.divisionsPerBar / barLength b * barLength b = voice.divisionsPerBar) := by
  have hmem := mem_voiceBarLengths hp hv hs hb
  have hdvd : barLength b ∣ voice.divisionsPerBar := by
    rw [buildVoice_divisions h]
    exact dvd_foldl_lcm_mem _ 1 _ hmem
  exact ⟨mod_eq_zero_of_dvd' hdvd, fun _ => Nat.div_mul_cancel hdvd⟩

/-- Closed instance of the exactness theorem at a 3-against-2 polyrhythm:
the voice resolves to 6 divisions per bar and 6 % 3 = 0 for the
three-token bar. -/
theorem c6_note_scale_exact_witness :
    buildVoice [⟨some "D", [⟨[⟨[.rest 1, .rest 1, .rest 1]⟩]⟩, ⟨[⟨[.rest 1, .rest 1]⟩]⟩]⟩]
        ⟨"D", none, none, none, none⟩ = .ok ⟨"D", 1, 0, 0, none, 6, []⟩ ∧
    (6 : Nat) % barLength ⟨[.rest 1, .rest 1, .rest 1]⟩ = 0 ∧
    (6 : Nat) / barLength ⟨[.rest 1, .rest 1, .rest 1]⟩ * barLength ⟨[.rest 1, .rest 1, .rest 1]⟩ = 6 := by
  have h : buildVoice [⟨some "D", [⟨[⟨[.rest 1, .rest 1, .rest 1]⟩]⟩, ⟨[⟨[.rest 1, .rest 1]⟩]⟩]⟩]
      ⟨"D", none, none, none, none⟩ = .ok ⟨"D", 1, 0, 0, none, 6, []⟩ := rfl
  obtain ⟨h1, h2⟩ := c6_note_scale_exact _ _ _
      ⟨some "D", [⟨[⟨[.rest 1, .rest 1, .rest 1]⟩]⟩, ⟨[⟨[.rest 1, .rest 1]⟩]⟩]⟩
      ⟨[⟨[.rest 1, .rest 1, .rest 1]⟩]⟩ ⟨[.rest 1, .rest 1, .rest 1]⟩
      h (by decide) rfl (by decide) (by decide)
  exact ⟨h, h1, h2 (by decide)⟩

theorem find?_first {α : Type} (f : α → Bool) (pre : List α) (p : α) (post : List α)
    (hpre : ∀ q ∈ pre, f q = false) (hp : f p = true) :
    (pre ++ p :: post).find? f = some p := by
  induction pre with
  | nil => simp [List.find?, hp]
  | cons q qs ih =>
    have hq := hpre q (List.mem_cons_self q qs)
    simp only [List.cons_append, List.find?, hq]
    exact ih (fun r hr => hpre r (List.mem_cons_of_mem q hr))

theorem validatePiece_error {pn : PieceNode} (hex : ∃ p ∈ pn.plays, playMatched pn.voices p = false) :
    ∃ e, validatePiece pn = .error e := by
  unfold validatePiece
  rcases hf : pn.plays.find? (fun p => !(playMatched pn.voices p)) with _ | p
  · obtain ⟨p, hmem, hm⟩ := hex
    have := List.find?_eq_none.mp hf p hmem
    simp [hm] at this
  · exact ⟨_, rfl⟩

/-- C3: play/voice binding is validated for a whole piece before any
timing work.  If the first unmatched play of a piece is named, the piece
fails with `UndeclaredVoice` carrying that name; if it is anonymous, with
`VoicelessPlayBlock` — in both cases regardless of the piece's voices and
their notes.  Whenever any piece of the input contains an unmatched play,
the whole `sequence_pieces` call returns an error, so no partial piece
list is ever returned alongside one. -/
theorem c3_binding_validation :
    (∀ (pn : PieceNode) (pre : List PlayNode) (p : PlayNode) (post : List PlayNode)
        (n : String),
      pn.plays = pre ++ p :: post →
      (∀ q ∈ pre, playMatched pn.voices q = true) →
      playMatched pn.voices p = false →
      p.voice = some n →
      sequencePiece pn = .error ⟨123456789, 123456789, .undeclaredVoice n⟩) ∧
    (∀ (pn : PieceNode) (pre : List PlayNode) (p : PlayNode) (post : List PlayNode),
      pn.plays = pre ++ p :: post →
      (∀ q ∈ pre, playMatched pn.voices q = true) →
      playMatched pn.voices p = false →
      p.voice = none →
      sequencePiece pn = .error ⟨123456789, 123456789, .voicelessPlayBlock⟩) ∧
    (∀ (pns : List PieceNode) (pn : PieceNode),
      pn ∈ pns →
      (∃ p ∈ pn.plays, playMatched pn.voices p = false) →
      ∃ e, sequencePieces pns = .error e) := by
  have hval : ∀ (pn : PieceNode) (pre : List PlayNode) (p : PlayNode) (post : List PlayNode),
      pn.plays = pre ++ p :: post →
      (∀ q ∈ pre, playMatched pn.voices q = true) →
      playMatched pn.voices p = false →
      validatePiece pn = .error ⟨123456789, 123456789,
        match p.voice with
        | some voiceName => .undeclaredVoice voiceName
        | none => .voicelessPlayBlock⟩ := by
    intro pn pre p post hsplit hpre hp
    unfold validatePiece
    rw [hsplit, find?_first (fun q => !(playMatched pn.voices q)) pre p post
      (fun q hq => by simp [hpre q hq]) (by simp [hp])]
  refine ⟨?_, ?_, ?_⟩
  · intro pn pre p post n hsplit hpre hp hn
    have h := hval pn pre p post hsplit hpre hp
    rw [hn] at h
    unfold sequencePiece
    rw [h]
  · intro pn pre p post hsplit hpre hp hn
    have h := hval pn pre p post hsplit hpre hp
    rw [hn] at h
    unfold sequencePiece
    rw [h]
  · intro pns pn hmem hex
    induction pns with
    | nil => cases hmem
    | cons q qs ih =>
      unfold sequencePieces
      rcases List.mem_cons.mp hmem with rfl | hmem'
      · obtain ⟨e, he⟩ := validatePiece_error hex
        unfold sequencePiece
        rw [he]
        exact ⟨e, rfl⟩
      · rcases hq : sequencePiece q with e | piece
        · exact ⟨e, rfl⟩
        · obtain ⟨e, he⟩ := ih hmem'
          rw [he]
          exact ⟨e, rfl⟩

/-- Closed instance of the binding-validation theorem: a play naming the
undeclared voice `Different` fails with `UndeclaredVoice`, an anonymous
play with no voices fails with `VoicelessPlayBlock`, and a whole call
containing such a piece returns an error. -/
theorem c3_binding_validation_witness :
    sequencePiece ⟨none, none, none, none, [⟨"OneNote", none, none, none, none⟩],
        [⟨some "Different", []⟩]⟩ =
      .error ⟨123456789, 123456789, .undeclaredVoice "Different"⟩ ∧
    sequencePiece ⟨none, none, none, none, [], [⟨none, []⟩]⟩ =
      .error ⟨123456789, 123456789, .voicelessPlayBlock⟩ ∧
    ∃ e, sequencePieces [⟨none, none, none, none, [], [⟨none, []⟩]⟩] = .error e := by
  refine ⟨?_, ?_, ?_⟩
  · exact c3_binding_validation.1 _ [] ⟨some "Different", []⟩ [] "Different" rfl
      (by intro q hq; cases hq) (by decide) rfl
  · exact c3_binding_validation.2.1 _ [] ⟨none, []⟩ [] rfl (by intro q hq; cases hq) rfl rfl
  · exact c3_binding_validation.2.2 [⟨none, none, none, none, [], [⟨none, []⟩]⟩] _
      (List.mem_singleton.mpr rfl) ⟨⟨none, []⟩, List.mem_singleton.mpr rfl, rfl⟩

/-- C4: a Note token resolves to pitch `midi + octave * 12`; when that sum
fits the `i8` pitch range a new note with the scaled length is appended at
the cursor, the previous-note flag is set and the cursor advances, and
when it does not fit, resolution stops with `InvalidNote` carrying the
unresolved midi and the octave offset — a hard error of the whole
`sequence_pieces` call, as the last conjunct shows for a one-note piece. -/
theorem c4_note_resolution (octave : Int) (noteScale : Nat) (st : ScanState)
    (midi : Int) (len : Nat) :
    ((-128 ≤ midi + octave * 12 ∧ midi + octave * 12 ≤ 127) →
      processNote octave noteScale st (.note midi len) =
        .ok ⟨st.notes ++ [⟨midi + octave * 12, noteScale * len, st.cursor⟩],
             true, st.cursor + noteScale * len⟩) ∧
    (¬(-128 ≤ midi + octave * 12 ∧ midi + octave * 12 ≤ 127) →
      processNote octave noteScale st (.note midi len) =
        .error ⟨12345, 12345, .invalidNote midi octave⟩) ∧
    (∀ name : String, ¬(-128 ≤ midi + octave * 12 ∧ midi + octave * 12 ≤ 127) →
      sequencePieces [⟨none, none, none, none, [⟨name, none, none, some octave, none⟩],
          [⟨some name, [⟨[⟨[.note midi len]⟩]⟩]⟩]⟩] =
        .error ⟨12345, 12345, .invalidNote midi octave⟩) := by
  refine ⟨?_, ?_, ?_⟩
  · intro h
    simp [processNote, h]
  · intro h
    simp [processNote, h]
  · intro name h
    have hrun : processNote octave (((1 : Nat) * len + 0) / (len + 0)) ⟨[], false, 0⟩ (.note midi len) =
        .error ⟨12345, 12345, .invalidNote midi octave⟩ := by
      simp [processNote, h]
    simp [sequencePieces, sequencePiece, validatePiece, playMatched, List.find?,
      buildVoices, buildVoice, processPlays, processStaves, processStave, processBars,
      processBar, processNotes, voiceBarLengths, barLength, NoteNode.length,
      lcm', Nat.lcm, processNote, h]

/-- Closed instance of the note-resolution theorem: middle C with no
transpose is appended in range; a high G pushed up an octave fails with
`InvalidNote`, also at the whole-call level. -/
theorem c4_note_resolution_witness :
    processNote 0 1 ⟨[], false, 0⟩ (.note 60 1) = .ok ⟨[⟨60, 1, 0⟩], true, 1⟩ ∧
    processNote 1 1 ⟨[], false, 0⟩ (.note 127 1) = .error ⟨12345, 12345, .invalidNote 127 1⟩ ∧
    sequencePieces [⟨none, none, none, none, [⟨"V", none, none, some 1, none⟩],
        [⟨some "V", [⟨[⟨[.note 127 1]⟩]⟩]⟩]⟩] =
      .error ⟨12345, 12345, .invalidNote 127 1⟩ := by
  refine ⟨?_, ?_, ?_⟩
  · have h := (c4_note_resolution 0 1 ⟨[], false, 0⟩ 60 1).1 (by decide)
    simpa using h
  · exact (c4_note_resolution 1 1 ⟨[], false, 0⟩ 127 1).2.1 (by decide)
  · exact (c4_note_resolution 1 1 ⟨[], false, 0⟩ 127 1).2.2 "V" (by decide)

theorem bumpLast_append (ns : List Note) (n : Note) (d : Nat) :
    bumpLast (ns ++ [n]) d = ns ++ [{ n with length := n.length + d }] := by
  induction ns with
  | nil => rfl
  | cons m ms ih =>
    cases ms with
    | nil => simp [bumpLast]
    | cons m' ms' => simpa [bumpLast] using ih

/-- C2: a Rest clears the previous-note flag and advances the cursor by
`scale * length`; an Extension with no target changes no note and advances
the cursor; an Extension with a target lengthens exactly the last appended
note — the immediately preceding Note of the same stave's scan — by
`scale * length` and advances the cursor.  The flag persists across bar
boundaries within a stave: a one-note bar followed by a one-extension bar
yields a single note carrying both bars' scaled lengths, while a trailing
Rest in the first bar severs the tie and the extension changes nothing. -/
theorem c2_extension_rest_semantics (octave : Int) :
    (∀ (noteScale : Nat) (st : ScanState) (len : Nat),
      processNote octave noteScale st (.rest len) =
        .ok ⟨st.notes, false, st.cursor + noteScale * len⟩) ∧
    (∀ (noteScale : Nat) (st : ScanState) (len : Nat),
      st.previousNoteExists = false →
      processNote octave noteScale st (.extensionOf len) =
        .ok ⟨st.notes, false, st.cursor + noteScale * len⟩) ∧
    (∀ (noteScale : Nat) (st : ScanState) (len : Nat) (ns : List Note) (n : Note),
      st.previousNoteExists = true →
      st.notes = ns ++ [n] →
      processNote octave noteScale st (.extensionOf len) =
        .ok ⟨ns ++ [{ n with length := n.length + noteScale * len }],
             true, st.cursor + noteScale * len⟩) ∧
    (∀ (noteScale : Nat) (notes : List Note) (c len : Nat) (ts : List NoteNode),
      processNotes octave noteScale ⟨notes, false, c⟩ (.extensionOf len :: ts) =
        processNotes octave noteScale ⟨notes, false, c + noteScale * len⟩ ts) ∧
    (∀ (divisions : Nat) (notes : List Note) (midi : Int) (len1 len2 : Nat),
      (-128 ≤ midi + octave * 12 ∧ midi + octave * 12 ≤ 127) →
      processStave octave divisions notes ⟨[⟨[.note midi len1]⟩, ⟨[.extensionOf len2]⟩]⟩ =
        .ok (notes ++ [⟨midi + octave * 12,
          divisions / len1 * len1 + divisions / len2 * len2, 0⟩])) ∧
    (∀ (divisions : Nat) (notes : List Note) (midi : Int) (len1 lenR len2 : Nat),
      (-128 ≤ midi + octave * 12 ∧ midi + octave * 12 ≤ 127) →
      processStave octave divisions notes
          ⟨[⟨[.note midi len1, .rest lenR]⟩, ⟨[.extensionOf len2]⟩]⟩ =
        .ok (notes ++ [⟨midi + octave * 12, divisions / (len1 + lenR) * len1, 0⟩])) := by
  refine ⟨?_, ?_, ?_, ?_, ?_, ?_⟩
  · intro noteScale st len
    rfl
  · intro noteScale st len h
    simp [processNote, h]
  · intro noteScale st len ns n hprev hnotes
    simp [processNote, hprev, hnotes, bumpLast_append]
  · intro noteScale notes c len ts
    simp [processNotes, processNote]
  · intro divisions notes midi len1 len2 h
    simp [processStave, processBars, processBar, processNotes, processNote, barLength,
      NoteNode.length, h, bumpLast_append]
  · intro divisions notes midi len1 lenR len2 h
    simp [processStave, processBars, processBar, processNotes, processNote, barLength,
      NoteNode.length, h]

/-- Closed instance of the extension semantics: the cross-bar tie
`C E G . | . . E C` (in tokens) extends the G across the bar boundary to
length 4 while the surrounding notes keep length 1, matching the
`notes_can_be_tied_across_bars` source test. -/
theorem c2_extension_rest_semantics_witness :
    processNote 0 1 ⟨[⟨60, 1, 0⟩], true, 1⟩ (.rest 1) = .ok ⟨[⟨60, 1, 0⟩], false, 2⟩ ∧
    processNote 0 1 ⟨[⟨60, 1, 0⟩], false, 1⟩ (.extensionOf 1) = .ok ⟨[⟨60, 1, 0⟩], false, 2⟩ ∧
    processNote 0 1 ⟨[⟨60, 1, 0⟩], true, 1⟩ (.extensionOf 2) = .ok ⟨[⟨60, 3, 0⟩], true, 3⟩ ∧
    processStave 0 4 [] ⟨[⟨[.note 67 3]⟩, ⟨[.extensionOf 4]⟩]⟩ =
      .ok [⟨67, 4 / 3 * 3 + 4 / 4 * 4, 0⟩] ∧
    processStave 0 2 [] ⟨[⟨[.note 67 1, .rest 1]⟩, ⟨[.extensionOf 2]⟩]⟩ =
      .ok [⟨67, 2 / 2 * 1, 0⟩] := by
  refine ⟨?_, ?_, ?_, ?_, ?_⟩
  · exact (c2_extension_rest_semantics 0).1 1 ⟨[⟨60, 1, 0⟩], true, 1⟩ 1
  · exact (c2_extension_rest_semantics 0).2.1 1 ⟨[⟨60, 1, 0⟩], false, 1⟩ 1 rfl
  · have h := (c2_extension_rest_semantics 0).2.2.1 1 ⟨[⟨60, 1, 0⟩], true, 1⟩ 2 [] ⟨60, 1, 0⟩ rfl rfl
    simpa using h
  · have h := (c2_extension_rest_semantics 0).2.2.2.2.1 4 [] 67 3 4 (by decide)
    simpa using h
  · have h := (c2_extension_rest_semantics 0).2.2.2.2.2 2 [] 67 1 1 2 (by decide)
    simpa using h

theorem buildVoice_ok_eq {plays : List PlayNode} {vn : VoiceNode} {voice : Voice}
    (h : buildVoice plays vn = .ok voice) :
    ∃ notes, voice = ⟨vn.name, vn.channel.getD 1, vn.program.getD 0, vn.octave.getD 0,
      vn.volume.map (fun vol => (vol : ℚ) / 127),
      (voiceBarLengths vn.name plays).foldl lcm' 1, notes⟩ := by
  unfold buildVoice at h
  rcases hp : processPlays vn.name (vn.octave.getD (Voice.octave {}))
      ((voiceBarLengths vn.name plays).foldl lcm' 1) [] plays with e | notes <;>
    simp only [hp] at h
  · cases h
  · cases h
    exact ⟨notes, rfl⟩

/-- C7 counterexample: the parser accepts `volume: 255` (volume is a `u8`
attribute), and sequencing a voice with that volume exposes the value
255/127, which is greater than 1 — the exposed volume is not normalised
into the range 0.0–1.0 for every parser-accepted volume. -/
theorem c7_volume_counterexample :
    Parse.parseVoiceContents 2 none (Parse.strBytes "volume: 255") =
      some (.ok (⟨none, none, none, none, some 255, none⟩, [])) ∧
    buildVoice [] ⟨"V", none, none, none, some 255⟩ =
      .ok ⟨"V", 1, 0, 0, some ((255 : ℚ) / 127), 1, []⟩ ∧
    ¬((255 : ℚ) / 127 ≤ 1) := by
  refine ⟨rfl, rfl, by norm_num⟩

/-- C7 amended: the exposed volume of a resolved voice equals the parsed
volume divided by 127; it is always nonnegative, and it lies within
0.0–1.0 exactly when the parsed volume is at most 127.  (The parser
accepts any `u8` volume up to 255, and values 128–255 produce volumes
greater than 1.0.) -/
theorem c7_volume_amended (plays : List PlayNode) (vn : VoiceNode) (v : Nat) (voice : Voice)
    (hv : vn.volume = some v) (h : buildVoice plays vn = .ok voice) :
    voice.volume = some ((v : ℚ) / 127) ∧
    0 ≤ (v : ℚ) / 127 ∧
    ((v : ℚ) / 127 ≤ 1 ↔ v ≤ 127) := by
  obtain ⟨notes, rfl⟩ := buildVoice_ok_eq h
  refine ⟨by simp [hv], by positivity, ?_⟩
  rw [div_le_one (by norm_num : (0 : ℚ) < 127)]
  exact_mod_cast Iff.rfl

/-- Closed instance of the amended volume theorem at parsed volume 100. -/
theorem c7_volume_amended_witness :
    buildVoice [] ⟨"V", none, none, none, some 100⟩ =
      .ok ⟨"V", 1, 0, 0, some ((100 : ℚ) / 127), 1, []⟩ ∧
    (⟨"V", 1, 0, 0, some ((100 : ℚ) / 127), 1, []⟩ : Voice).volume = some ((100 : ℚ) / 127) ∧
    (100 : ℚ) / 127 ≤ 1 := by
  have h : buildVoice [] ⟨"V", none, none, none, some 100⟩ =
      .ok ⟨"V", 1, 0, 0, some ((100 : ℚ) / 127), 1, []⟩ := rfl
  obtain ⟨h1, -, h3⟩ := c7_volume_amended [] ⟨"V", none, none, none, some 100⟩ 100 _ rfl h
  exact ⟨h, h1, h3.mpr (by norm_num)⟩

theorem check_append_self (ks t : List Nat) : Parse.check ks (ks ++ t) = true := by
  induction ks with
  | nil => rfl
  | cons k ks ih => simp [Parse.check, ih]

theorem check_iff_append (ks rest : List Nat) :
    Parse.check ks rest = true ↔ ∃ t, rest = ks ++ t := by
  constructor
  · intro h
    induction ks generalizing rest with
    | nil => exact ⟨rest, rfl⟩
    | cons k ks ih =>
      cases rest with
      | nil => cases h
      | cons c cs =>
        simp only [Parse.check, Bool.and_eq_true, beq_iff_eq] at h
        obtain ⟨rfl, h2⟩ := h
        obtain ⟨t, rfl⟩ := ih cs h2
        exact ⟨t, rfl⟩
  · rintro ⟨t, rfl⟩
    exact check_append_self ks t

/-- C8: a keyword matches at the current position exactly when its bytes
are present and the byte following them, if any, is not an identifier
character (letter, digit or underscore); in particular a keyword followed
by an identifier character never matches, so `voice2` does not match the
keyword `voice`. -/
theorem c8_keyword_boundary (keyword rest : List Nat) :
    (Parse.checkKeyword keyword rest = true ↔
      (Parse.check keyword rest = true ∧
        (rest.drop keyword.length = [] ∨
          ∃ c t, rest.drop keyword.length = c :: t ∧ Parse.isIdentChar c = false))) ∧
    (∀ (c : Nat) (t : List Nat), rest = keyword ++ c :: t → Parse.isIdentChar c = true →
      Parse.checkKeyword keyword rest = false) := by
  constructor
  · unfold Parse.checkKeyword
    rcases h : rest.drop keyword.length with _ | ⟨c, t⟩
    · simp
    · simp only [Bool.and_eq_true, Bool.not_eq_true']
      constructor
      · rintro ⟨h1, h2⟩
        exact ⟨h1, Or.inr ⟨c, t, rfl, h2⟩⟩
      · rintro ⟨h1, h2 | ⟨c', t', he, hc⟩⟩
        · cases h2
        · cases he
          exact ⟨h1, hc⟩
  · rintro c t rfl hc
    unfold Parse.checkKeyword
    have hd : (keyword ++ c :: t).drop keyword.length = c :: t := by
      simp [List.drop_left]
    rw [hd]
    simp [hc]

/-- Closed instance of the keyword-boundary theorem: `voice2` does not
match the keyword `voice`, while `voice ` (trailing space) does. -/
theorem c8_keyword_boundary_witness :
    Parse.checkKeyword (Parse.strBytes "voice") (Parse.strBytes "voice2") = false ∧
    Parse.checkKeyword (Parse.strBytes "voice") (Parse.strBytes "voice x") = true := by
  constructor
  · exact (c8_keyword_boundary (Parse.strBytes "voice") (Parse.strBytes "voice2")).2
      50 [] rfl rfl
  · exact (c8_keyword_boundary (Parse.strBytes "voice") (Parse.strBytes "voice x")).1.mpr
      ⟨rfl, Or.inr ⟨32, [120], rfl, rfl⟩⟩

/-- C9: the empty source parses (with any sufficient fuel) to exactly one
piece with no title, composer, tempo or beats and with empty voice and
play lists, and sequencing that default piece yields exactly one resolved
piece with the default tempo and beats and an empty voice list. -/
theorem c9_empty_source (fuel : Nat) (h : 2 ≤ fuel) :
    Parse.parse fuel (Parse.strBytes "") =
      some (.ok ⟨[⟨none, none, none, none, [], []⟩]⟩) ∧
    sequencePieces [⟨none, none, none, none, [], []⟩] = .ok [⟨none, none, 120, 4, []⟩] := by
  obtain ⟨n, rfl⟩ : ∃ n, fuel = n + 2 := ⟨fuel - 2, by omega⟩
  exact ⟨rfl, rfl⟩

/-- Closed instance of the empty-source theorem at fuel 2. -/
theorem c9_empty_source_witness :
    2 ≤ 2 ∧
    (Parse.parse 2 (Parse.strBytes "") =
        some (.ok ⟨[⟨none, none, none, none, [], []⟩]⟩) ∧
      sequencePieces [⟨none, none, none, none, [], []⟩] = .ok [⟨none, none, 120, 4, []⟩]) :=
  ⟨by decide, c9_empty_source 2 (by decide)⟩

theorem parseLoop_grows (fuel : Nat) :
    ∀ (rest : List Nat) (acc pieces : List Parse.Piece),
      Parse.parseLoop fuel rest acc = some (.ok pieces) → acc.length < pieces.length := by
  induction fuel with
  | zero => intro rest acc pieces h; cases h
  | succ fuel ih =>
    intro rest acc pieces h
    cases hp : Parse.parsePiece fuel rest with
    | none => simp [Parse.parseLoop, Parse.obind, hp] at h
    | some res =>
      cases res with
      | error e => simp [Parse.parseLoop, Parse.obind, hp] at h
      | ok pr =>
        obtain ⟨piece, r1⟩ := pr
        simp only [Parse.parseLoop, Parse.obind, hp] at h
        by_cases hf : Parse.finished r1
        · simp only [hf, if_true, Option.some.injEq, Except.ok.injEq] at h
          subst h
          simp
        · simp only [hf, if_false] at h
          have := ih r1 (acc ++ [piece]) pieces h
          simp only [List.length_append, List.length_cons, List.length_nil] at this
          omega

/-- C10: whenever `parse` succeeds, the returned tree contains at least
one piece — the top-level loop pushes a parsed piece before checking for
end of input, so the piece list is never empty. -/
theorem c10_parse_nonempty (fuel : Nat) (source : List Nat) (tree : Parse.ParseTree)
    (h : Parse.parse fuel source = some (.ok tree)) : tree.pieces ≠ [] := by
  unfold Parse.parse at h
  cases hl : Parse.parseLoop fuel (Parse.skipWhitespace source) [] with
  | none => simp [hl] at h
  | some res =>
    cases res with
    | error e => simp [hl] at h
    | ok pieces =>
      simp only [hl, Option.some.injEq, Except.ok.injEq] at h
      subst h
      have hlen := parseLoop_grows fuel (Parse.skipWhitespace source) [] pieces hl
      simp only [List.length_nil] at hlen
      exact List.ne_nil_of_length_pos hlen

/-- Closed instance of the nonemptiness theorem at the empty source. -/
theorem c10_parse_nonempty_witness :
    (⟨[⟨none, none, none, none, [], []⟩]⟩ : Parse.ParseTree).pieces ≠ [] :=
  c10_parse_nonempty 2 [] ⟨[⟨none, none, none, none, [], []⟩]⟩ rfl

theorem posKeys_nodup (l : List Note) : (posKeys l).Nodup :=
  (List.perm_insertionSort (· ≤ ·) ((l.map Note.position).dedup)).nodup_iff.mpr
    (List.nodup_dedup _)

theorem posKeys_sorted (l : List Note) : (posKeys l).Sorted (· ≤ ·) :=
  List.sorted_insertionSort (· ≤ ·) ((l.map Note.position).dedup)

theorem mem_posKeys {l : List Note} {k : Nat} :
    k ∈ posKeys l ↔ ∃ n ∈ l, n.position = k := by
  unfold posKeys
  rw [List.mem_insertionSort, List.mem_dedup, List.mem_map]

theorem flatMap_filter_filter (ks : List Nat) (hks : ks.Nodup) (l : List Note) (k : Nat) :
    (ks.flatMap (fun j => l.filter (fun n => n.position == j))).filter
        (fun n => n.position == k) =
      if k ∈ ks then l.filter (fun n => n.position == k) else [] := by
  induction ks with
  | nil => simp
  | cons j ks ih =>
    have hj : j ∉ ks := (List.nodup_cons.mp hks).1
    have hks' : ks.Nodup := (List.nodup_cons.mp hks).2
    rw [List.flatMap_cons, List.filter_append, List.filter_filter, ih hks']
    by_cases hkj : k = j
    · subst hkj
      have h1 : (l.filter (fun n => (n.position == k) && (n.position == k))) =
          l.filter (fun n => n.position == k) :=
        List.filter_congr (fun n _ => Bool.and_self _)
      simp [h1, hj]
    · have h1 : (l.filter (fun n => (n.position == k) && (n.position == j))) = [] := by
        rw [List.filter_eq_nil_iff]
        intro n _ hn
        simp only [Bool.and_eq_true, beq_iff_eq] at hn
        exact hkj (hn.1 ▸ hn.2 ▸ rfl)
      rw [h1]
      simp [List.mem_cons, hkj]

theorem flatMap_filter_perm (ks : List Nat) (hks : ks.Nodup) :
    ∀ l : List Note, (∀ n ∈ l, n.position ∈ ks) →
      List.Perm (ks.flatMap (fun j => l.filter (fun n => n.position == j))) l := by
  induction ks with
  | nil =>
    intro l hl
    cases l with
    | nil => simp
    | cons n l => cases hl n (List.mem_cons_self n l)
  | cons k ks ih =>
    intro l hl
    have hk : k ∉ ks := (List.nodup_cons.mp hks).1
    have hks' : ks.Nodup := (List.nodup_cons.mp hks).2
    have hblocks : ∀ j ∈ ks, l.filter (fun n => n.position == j) =
        (l.filter (fun n => !(n.position == k))).filter (fun n => n.position == j) := by
      intro j hj
      rw [List.filter_filter]
      refine (List.filter_congr ?_).symm
      intro n _
      by_cases hn : n.position = j
      · have h1 : (n.position == j) = true := beq_iff_eq.mpr hn
        have h2 : (n.position == k) = false := by
          rw [beq_eq_false_iff_ne]
          intro hc
          exact hk (hc ▸ hn ▸ hj)
        rw [h1, h2]
        rfl
      · have h1 : (n.position == j) = false := beq_eq_false_iff_ne.mpr hn
        rw [h1]
        simp
    have hrest : ks.flatMap (fun j => l.filter (fun n => n.position == j)) =
        ks.flatMap (fun j =>
          (l.filter (fun n => !(n.position == k))).filter (fun n => n.position == j)) := by
      unfold List.flatMap
      exact congrArg List.flatten (List.map_congr_left hblocks)
    have hihyp : ∀ n ∈ l.filter (fun n => !(n.position == k)), n.position ∈ ks := by
      intro n hn
      obtain ⟨hnl, hnk⟩ := List.mem_filter.mp hn
      rcases List.mem_cons.mp (hl n hnl) with h | h
      · simp [h] at hnk
      · exact h
    have hp1 : List.Perm
        (l.filter (fun n => n.position == k) ++
          ks.flatMap (fun j =>
            (l.filter (fun n => !(n.position == k))).filter (fun n => n.position == j)))
        l :=
      List.Perm.trans (List.Perm.append_left _ (ih hks' _ hihyp))
        (List.filter_append_perm _ l)
    rw [List.flatMap_cons, hrest]
    exact hp1

theorem flatMap_filter_pairwise (ks : List Nat) (hks : ks.Sorted (· ≤ ·)) (l : List Note) :
    (ks.flatMap (fun j => l.filter (fun n => n.position == j))).Pairwise
      (fun a b => a.position ≤ b.position) := by
  induction ks with
  | nil => simp
  | cons k ks ih =>
    rw [List.flatMap_cons, List.pairwise_append]
    obtain ⟨hhead, htail⟩ := List.sorted_cons.mp hks
    refine ⟨?_, ih htail, ?_⟩
    · refine List.pairwise_of_forall_mem_list ?_
      intro a ha b hb
      have ha' := (beq_iff_eq.mp (List.mem_filter.mp ha).2)
      have hb' := (beq_iff_eq.mp (List.mem_filter.mp hb).2)
      rw [ha', hb']
    · intro a ha b hb
      have ha' := (beq_iff_eq.mp (List.mem_filter.mp ha).2)
      obtain ⟨j, hj, hbj⟩ := List.mem_flatMap.mp hb
      have hb' := (beq_iff_eq.mp (List.mem_filter.mp hbj).2)
      rw [ha', hb']
      exact hhead j hj

theorem stableSortByPos_filter (l : List Note) (k : Nat) :
    (stableSortByPos l).filter (fun n => n.position == k) =
      l.filter (fun n => n.position == k) := by
  unfold stableSortByPos
  rw [flatMap_filter_filter _ (posKeys_nodup l) l k]
  by_cases hk : k ∈ posKeys l
  · simp [hk]
  · rw [if_neg hk]
    symm
    rw [List.filter_eq_nil_iff]
    intro n hn hnk
    exact hk (mem_posKeys.mpr ⟨n, hn, beq_iff_eq.mp hnk⟩)

theorem stableSortByPos_perm (l : List Note) : List.Perm (stableSortByPos l) l :=
  flatMap_filter_perm _ (posKeys_nodup l) l (fun n hn => mem_posKeys.mpr ⟨n, hn, rfl⟩)

theorem stableSortByPos_sorted (l : List Note) :
    (stableSortByPos l).Pairwise (fun a b => a.position ≤ b.position) :=
  flatMap_filter_pairwise _ (posKeys_sorted l) l

theorem posKeys_congr {l₁ l₂ : List Note}
    (h : ∀ k, (∃ n ∈ l₁, n.position = k) ↔ ∃ n ∈ l₂, n.position = k) :
    posKeys l₁ = posKeys l₂ := by
  refine List.eq_of_perm_of_sorted ?_ (posKeys_sorted l₁) (posKeys_sorted l₂)
  refine List.perm_of_nodup_nodup_toFinset_eq (posKeys_nodup l₁) (posKeys_nodup l₂) ?_
  ext k
  rw [List.mem_toFinset, List.mem_toFinset, mem_posKeys, mem_posKeys]
  exact h k

theorem stableSortByPos_sort_append (A B : List Note) :
    stableSortByPos (stableSortByPos A ++ B) = stableSortByPos (A ++ B) := by
  have hkeys : posKeys (stableSortByPos A ++ B) = posKeys (A ++ B) := by
    refine posKeys_congr (fun k => ?_)
    simp only [List.mem_append]
    constructor
    · rintro ⟨n, hn | hn, hk⟩
      · exact ⟨n, Or.inl ((stableSortByPos_perm A).mem_iff.mp hn), hk⟩
      · exact ⟨n, Or.inr hn, hk⟩
    · rintro ⟨n, hn | hn, hk⟩
      · exact ⟨n, Or.inl ((stableSortByPos_perm A).mem_iff.mpr hn), hk⟩
      · exact ⟨n, Or.inr hn, hk⟩
  conv_lhs => rw [stableSortByPos]
  conv_rhs => rw [stableSortByPos]
  rw [hkeys]
  unfold List.flatMap
  refine congrArg List.flatten (List.map_congr_left ?_)
  intro k _
  rw [List.filter_append, List.filter_append, stableSortByPos_filter]

theorem bumpLast_cons {n : Note} {ns : List Note} (h : ns ≠ []) (d : Nat) :
    bumpLast (n :: ns) d = n :: bumpLast ns d := by
  cases ns with
  | nil => exact absurd rfl h
  | cons m ms => rfl

theorem bumpLast_ne_nil {ns : List Note} (h : ns ≠ []) (d : Nat) : bumpLast ns d ≠ [] := by
  cases ns with
  | nil => exact absurd rfl h
  | cons n ns =>
    cases ns with
    | nil => simp [bumpLast]
    | cons m ms => simp [bumpLast]

theorem bumpLast_append_left (N : List Note) {D : List Note} (d : Nat) (h : D ≠ []) :
    bumpLast (N ++ D) d = N ++ bumpLast D d := by
  induction N with
  | nil => rfl
  | cons n N ih =>
    have hND : N ++ D ≠ [] := fun hc => h (List.append_eq_nil.mp hc).2
    rw [List.cons_append, bumpLast_cons hND, ih, List.cons_append]

theorem processNote_inv {octave : Int} {scale : Nat} {st st' : ScanState} {t : NoteNode}
    (h : st.previousNoteExists = true → st.notes ≠ [])
    (hp : processNote octave scale st t = .ok st') :
    st'.previousNoteExists = true → st'.notes ≠ [] := by
  cases t with
  | rest len =>
    cases hp
    intro hc
    cases hc
  | extensionOf len =>
    cases hp
    intro hc
    have hc' : st.previousNoteExists = true := hc
    show (if st.previousNoteExists = true then bumpLast st.notes (scale * len) else st.notes) ≠ []
    rw [if_pos hc']
    exact bumpLast_ne_nil (h hc') _
  | note midi len =>
    simp only [processNote] at hp
    by_cases hfit : -128 ≤ midi + octave * 12 ∧ midi + octave * 12 ≤ 127
    · rw [if_pos hfit] at hp
      cases hp
      intro _
      simp
    · rw [if_neg hfit] at hp
      cases hp

theorem processNotes_inv : ∀ (ts : List NoteNode) {octave : Int} {scale : Nat}
    {st st' : ScanState},
    (st.previousNoteExists = true → st.notes ≠ []) →
    processNotes octave scale st ts = .ok st' →
    (st'.previousNoteExists = true → st'.notes ≠ []) := by
  intro ts
  induction ts with
  | nil =>
    intro octave scale st st' h hp
    cases hp
    exact h
  | cons t ts ih =>
    intro octave scale st st' h hp
    unfold processNotes at hp
    rcases hstep : processNote octave scale st t with e | st1
    · rw [hstep] at hp
      cases hp
    · rw [hstep] at hp
      exact ih (processNote_inv h hstep) hp

theorem processNotes_cons_rest (octave : Int) (scale : Nat) (ns : List Note) (pv : Bool)
    (c len : Nat) (ts : List NoteNode) :
    processNotes octave scale ⟨ns, pv, c⟩ (.rest len :: ts) =
      processNotes octave scale ⟨ns, false, c + scale * len⟩ ts := rfl

theorem processNotes_cons_ext_true (octave : Int) (scale : Nat) (ns : List Note)
    (c len : Nat) (ts : List NoteNode) :
    processNotes octave scale ⟨ns, true, c⟩ (.extensionOf len :: ts) =
      processNotes octave scale ⟨bumpLast ns (scale * len), true, c + scale * len⟩ ts := rfl

theorem processNotes_cons_ext_false (octave : Int) (scale : Nat) (ns : List Note)
    (c len : Nat) (ts : List NoteNode) :
    processNotes octave scale ⟨ns, false, c⟩ (.extensionOf len :: ts) =
      processNotes octave scale ⟨ns, false, c + scale * len⟩ ts := rfl

theorem processNote_note_fit (octave : Int) (scale : Nat) (st : ScanState)
    (midi : Int) (len : Nat)
    (hfit : -128 ≤ midi + octave * 12 ∧ midi + octave * 12 ≤ 127) :
    processNote octave scale st (.note midi len) =
      .ok ⟨st.notes ++ [⟨midi + octave * 12, scale * len, st.cursor⟩], true,
        st.cursor + scale * len⟩ := by
  simp only [processNote]
  rw [if_pos hfit]

theorem processNote_note_nofit (octave : Int) (scale : Nat) (st : ScanState)
    (midi : Int) (len : Nat)
    (hfit : ¬(-128 ≤ midi + octave * 12 ∧ midi + octave * 12 ≤ 127)) :
    processNote octave scale st (.note midi len) =
      .error ⟨12345, 12345, .invalidNote midi octave⟩ := by
  simp only [processNote]
  rw [if_neg hfit]

theorem processNotes_cons_note_fit (octave : Int) (scale : Nat) (ns : List Note) (pv : Bool)
    (c : Nat) (midi : Int) (len : Nat) (ts : List NoteNode)
    (hfit : -128 ≤ midi + octave * 12 ∧ midi + octave * 12 ≤ 127) :
    processNotes octave scale ⟨ns, pv, c⟩ (.note midi len :: ts) =
      processNotes octave scale
        ⟨ns ++ [⟨midi + octave * 12, scale * len, c⟩], true, c + scale * len⟩ ts := by
  rw [show processNotes octave scale ⟨ns, pv, c⟩ (.note midi len :: ts) =
      (match processNote octave scale ⟨ns, pv, c⟩ (.note midi len) with
       | .error e => .error e
       | .ok st' => processNotes octave scale st' ts) from rfl,
    processNote_note_fit octave scale ⟨ns, pv, c⟩ midi len hfit]

theorem processNotes_cons_note_nofit (octave : Int) (scale : Nat) (ns : List Note) (pv : Bool)
    (c : Nat) (midi : Int) (len : Nat) (ts : List NoteNode)
    (hfit : ¬(-128 ≤ midi + octave * 12 ∧ midi + octave * 12 ≤ 127)) :
    processNotes octave scale ⟨ns, pv, c⟩ (.note midi len :: ts) =
      .error ⟨12345, 12345, .invalidNote midi octave⟩ := by
  rw [show processNotes octave scale ⟨ns, pv, c⟩ (.note midi len :: ts) =
      (match processNote octave scale ⟨ns, pv, c⟩ (.note midi len) with
       | .error e => .error e
       | .ok st' => processNotes octave scale st' ts) from rfl,
    processNote_note_nofit octave scale ⟨ns, pv, c⟩ midi len hfit]

theorem processNotes_append : ∀ (ts : List NoteNode) (octave : Int) (scale : Nat)
    (N D : List Note) (prev : Bool) (c : Nat),
    (prev = true → D ≠ []) →
    processNotes octave scale ⟨N ++ D, prev, c⟩ ts =
      (processNotes octave scale ⟨D, prev, c⟩ ts).map
        (fun st => ⟨N ++ st.notes, st.previousNoteExists, st.cursor⟩) := by
  intro ts
  induction ts with
  | nil =>
    intro octave scale N D prev c h
    rfl
  | cons t ts ih =>
    intro octave scale N D prev c h
    cases t with
    | rest len =>
      rw [processNotes_cons_rest, processNotes_cons_rest]
      exact ih octave scale N D false (c + scale * len) (by intro hc; cases hc)
    | extensionOf len =>
      cases prev with
      | true =>
        have hD : D ≠ [] := h rfl
        rw [processNotes_cons_ext_true, processNotes_cons_ext_true,
          bumpLast_append_left N (scale * len) hD]
        exact ih octave scale N (bumpLast D (scale * len)) true (c + scale * len)
          (fun _ => bumpLast_ne_nil hD _)
      | false =>
        rw [processNotes_cons_ext_false, processNotes_cons_ext_false]
        exact ih octave scale N D false (c + scale * len) (by intro hc; cases hc)
    | note midi len =>
      by_cases hfit : -128 ≤ midi + octave * 12 ∧ midi + octave * 12 ≤ 127
      · rw [processNotes_cons_note_fit octave scale (N ++ D) prev c midi len ts hfit,
          processNotes_cons_note_fit octave scale D prev c midi len ts hfit,
          List.append_assoc]
        exact ih octave scale N (D ++ [⟨midi + octave * 12, scale * len, c⟩]) true
          (c + scale * len) (by simp)
      · rw [processNotes_cons_note_nofit octave scale (N ++ D) prev c midi len ts hfit,
          processNotes_cons_note_nofit octave scale D prev c midi len ts hfit]
        rfl

theorem processBar_append (octave : Int) (div idx : Nat) (N D : List Note) (prev : Bool)
    (b : BarNode) (h : prev = true → D ≠ []) :
    processBar octave div idx (N ++ D) prev b =
      (processBar octave div idx D prev b).map (fun r => (N ++ r.1, r.2)) := by
  unfold processBar
  dsimp only
  rw [processNotes_append b.notes octave (div / barLength b) N D prev (idx * div) h]
  rcases processNotes octave (div / barLength b) ⟨D, prev, idx * div⟩ b.notes with e | st
  · rfl
  · rfl

theorem processBar_inv {octave : Int} {div idx : Nat} {D : List Note} {prev : Bool}
    {b : BarNode} {notes1 : List Note} {prev1 : Bool}
    (h : prev = true → D ≠ [])
    (hr : processBar octave div idx D prev b = .ok (notes1, prev1)) :
    prev1 = true → notes1 ≠ [] := by
  unfold processBar at hr
  dsimp only at hr
  rcases hn : processNotes octave (div / barLength b) ⟨D, prev, idx * div⟩ b.notes with e | st
  · rw [hn] at hr
    cases hr
  · rw [hn] at hr
    cases hr
    exact processNotes_inv b.notes h hn

theorem processBars_append : ∀ (bs : List BarNode) (octave : Int) (div idx : Nat)
    (N D : List Note) (prev : Bool), (prev = true → D ≠ []) →
    processBars octave div idx (N ++ D) prev bs =
      (processBars octave div idx D prev bs).map (fun r => (N ++ r.1, r.2)) := by
  intro bs
  induction bs with
  | nil =>
    intro octave div idx N D prev h
    rfl
  | cons b bs ih =>
    intro octave div idx N D prev h
    rw [show processBars octave div idx (N ++ D) prev (b :: bs) =
        (match processBar octave div idx (N ++ D) prev b with
         | .error e => .error e
         | .ok (notes1, prev1) => processBars octave div (idx + 1) notes1 prev1 bs) from rfl,
      show processBars octave div idx D prev (b :: bs) =
        (match processBar octave div idx D prev b with
         | .error e => .error e
         | .ok (notes1, prev1) => processBars octave div (idx + 1) notes1 prev1 bs) from rfl,
      processBar_append octave div idx N D prev b h]
    rcases hr : processBar octave div idx D prev b with e | r
    · rfl
    · obtain ⟨notes1, prev1⟩ := r
      exact ih octave div (idx + 1) N notes1 prev1 (processBar_inv h hr)

theorem processStave_append (octave : Int) (div : Nat) (N D : List Note) (s : StaveNode) :
    processStave octave div (N ++ D) s =
      (processStave octave div D s).map (fun ns => N ++ ns) := by
  unfold processStave
  rw [processBars_append s.bars octave div 0 N D false (by intro hc; cases hc)]
  rcases processBars octave div 0 D false s.bars with e | r
  · rfl
  · rfl

theorem processStaves_append : ∀ (ss : List StaveNode) (octave : Int) (div : Nat)
    (N D : List Note),
    processStaves octave div (N ++ D) ss =
      (processStaves octave div D ss).map (fun ns => N ++ ns) := by
  intro ss
  induction ss with
  | nil =>
    intro octave div N D
    rfl
  | cons s ss ih =>
    intro octave div N D
    rw [show processStaves octave div (N ++ D) (s :: ss) =
        (match processStave octave div (N ++ D) s with
         | .error e => .error e
         | .ok notes' => processStaves octave div notes' ss) from rfl,
      show processStaves octave div D (s :: ss) =
        (match processStave octave div D s with
         | .error e => .error e
         | .ok notes' => processStaves octave div notes' ss) from rfl,
      processStave_append octave div N D s]
    rcases processStave octave div D s with e | δ
    · rfl
    · exact ih octave div N δ

theorem stableSortByPos_nil : stableSortByPos [] = [] := rfl

theorem processPlays_eq_sorted : ∀ (plays : List PlayNode) (voiceName : String)
    (octave : Int) (div : Nat) (B : List Note),
    processPlays voiceName octave div (stableSortByPos B) plays =
      (processPlaysEncounterOrder voiceName octave div B plays).map stableSortByPos := by
  intro plays
  induction plays with
  | nil =>
    intro voiceName octave div B
    rfl
  | cons p ps ih =>
    intro voiceName octave div B
    rw [show processPlays voiceName octave div (stableSortByPos B) (p :: ps) =
        (if p.voice == some voiceName then
          match processStaves octave div (stableSortByPos B) p.staves with
          | .error e => .error e
          | .ok notes' => processPlays voiceName octave div (stableSortByPos notes') ps
        else processPlays voiceName octave div (stableSortByPos B) ps) from rfl,
      show processPlaysEncounterOrder voiceName octave div B (p :: ps) =
        (if p.voice == some voiceName then
          match processStaves octave div B p.staves with
          | .error e => .error e
          | .ok notes' => processPlaysEncounterOrder voiceName octave div notes' ps
        else processPlaysEncounterOrder voiceName octave div B ps) from rfl]
    by_cases hm : (p.voice == some voiceName) = true
    · rw [if_pos hm, if_pos hm]
      have hA : processStaves octave div (stableSortByPos B) p.staves =
          (processStaves octave div [] p.staves).map (fun ns => stableSortByPos B ++ ns) := by
        have h := processStaves_append p.staves octave div (stableSortByPos B) []
        rwa [List.append_nil] at h
      have hB : processStaves octave div B p.staves =
          (processStaves octave div [] p.staves).map (fun ns => B ++ ns) := by
        have h := processStaves_append p.staves octave div B []
        rwa [List.append_nil] at h
      rw [hA, hB]
      rcases processStaves octave div [] p.staves with e | δ
      · rfl
      · show processPlays voiceName octave div (stableSortByPos (stableSortByPos B ++ δ)) ps =
          (processPlaysEncounterOrder voiceName octave div (B ++ δ) ps).map stableSortByPos
        rw [stableSortByPos_sort_append B δ]
        exact ih voiceName octave div (B ++ δ)
    · rw [if_neg hm, if_neg hm]
      exact ih voiceName octave div B

theorem buildVoice_notes {plays : List PlayNode} {vn : VoiceNode} {voice : Voice}
    (h : buildVoice plays vn = .ok voice) :
    processPlays vn.name (vn.octave.getD (Voice.octave {}))
        ((voiceBarLengths vn.name plays).foldl lcm' 1) [] plays = .ok voice.notes := by
  unfold buildVoice at h
  rcases hp : processPlays vn.name (vn.octave.getD (Voice.octave {}))
      ((voiceBarLengths vn.name plays).foldl lcm' 1) [] plays with e | notes <;>
    simp only [hp] at h
  · cases h
  · cases h
    rfl

/-- C5: for every resolved voice, the note list is the stable sort by
position of the encounter-order note list (the same resolution with no
sorting): it is sorted by position ascending, it is a permutation of the
encounter order, and for every position the equal-position notes appear
exactly in their encounter order (stability). -/
theorem c5_notes_stable_sorted (plays : List PlayNode) (vn : VoiceNode) (voice : Voice)
    (E : List Note)
    (h : buildVoice plays vn = .ok voice)
    (hE : processPlaysEncounterOrder vn.name voice.octave voice.divisionsPerBar [] plays =
      .ok E) :
    voice.notes = stableSortByPos E ∧
    voice.notes.Pairwise (fun a b => a.position ≤ b.position) ∧
    (∀ k, voice.notes.filter (fun n => n.position == k) =
      E.filter (fun n => n.position == k)) ∧
    List.Perm voice.notes E := by
  obtain ⟨notes, hv⟩ := buildVoice_ok_eq h
  have hoct : voice.octave = vn.octave.getD 0 := by rw [hv]
  have hdiv : voice.divisionsPerBar = (voiceBarLengths vn.name plays).foldl lcm' 1 := by
    rw [hv]
  have hnotes := buildVoice_notes h
  rw [← stableSortByPos_nil] at hnotes
  rw [processPlays_eq_sorted plays vn.name (vn.octave.getD (Voice.octave {}))
    ((voiceBarLengths vn.name plays).foldl lcm' 1) []] at hnotes
  rw [hoct, hdiv] at hE
  rw [hE] at hnotes
  have hmain : voice.notes = stableSortByPos E := by
    have : Except.map stableSortByPos (Except.ok E) =
        (Except.ok (stableSortByPos E) : Except SequencingError (List Note)) := rfl
    rw [this] at hnotes
    exact (Except.ok.injEq _ _).mp hnotes.symm
  refine ⟨hmain, ?_, ?_, ?_⟩
  · rw [hmain]
    exact stableSortByPos_sorted E
  · intro k
    rw [hmain]
    exact stableSortByPos_filter E k
  · rw [hmain]
    exact stableSortByPos_perm E

/-- Closed instance of the stable-sort theorem: a play with two staves for
one voice, each contributing a note at position 0; the resolved list keeps
the stave encounter order for the equal positions and is sorted. -/
theorem c5_notes_stable_sorted_witness :
    buildVoice [⟨some "D", [⟨[⟨[.note 60 1]⟩]⟩, ⟨[⟨[.note 67 1]⟩]⟩]⟩]
        ⟨"D", none, none, none, none⟩ =
      .ok ⟨"D", 1, 0, 0, none, 1, [⟨60, 1, 0⟩, ⟨67, 1, 0⟩]⟩ ∧
    processPlaysEncounterOrder (VoiceNode.name ⟨"D", none, none, none, none⟩)
        (Voice.octave ⟨"D", 1, 0, 0, none, 1, [⟨60, 1, 0⟩, ⟨67, 1, 0⟩]⟩)
        (Voice.divisionsPerBar ⟨"D", 1, 0, 0, none, 1, [⟨60, 1, 0⟩, ⟨67, 1, 0⟩]⟩) []
        [⟨some "D", [⟨[⟨[.note 60 1]⟩]⟩, ⟨[⟨[.note 67 1]⟩]⟩]⟩] =
      .ok [⟨60, 1, 0⟩, ⟨67, 1, 0⟩] ∧
    Voice.notes ⟨"D", 1, 0, 0, none, 1, [⟨60, 1, 0⟩, ⟨67, 1, 0⟩]⟩ =
      stableSortByPos [⟨60, 1, 0⟩, ⟨67, 1, 0⟩] ∧
    List.Perm (Voice.notes ⟨"D", 1, 0, 0, none, 1, [⟨60, 1, 0⟩, ⟨67, 1, 0⟩]⟩)
      [⟨60, 1, 0⟩, ⟨67, 1, 0⟩] := by
  have h : buildVoice [⟨some "D", [⟨[⟨[.note 60 1]⟩]⟩, ⟨[⟨[.note 67 1]⟩]⟩]⟩]
      ⟨"D", none, none, none, none⟩ =
      .ok ⟨"D", 1, 0, 0, none, 1, [⟨60, 1, 0⟩, ⟨67, 1, 0⟩]⟩ := rfl
  have hE : processPlaysEncounterOrder (VoiceNode.name ⟨"D", none, none, none, none⟩)
      (Voice.octave ⟨"D", 1, 0, 0, none, 1, [⟨60, 1, 0⟩, ⟨67, 1, 0⟩]⟩)
      (Voice.divisionsPerBar ⟨"D", 1, 0, 0, none, 1, [⟨60, 1, 0⟩, ⟨67, 1, 0⟩]⟩) []
      [⟨some "D", [⟨[⟨[.note 60 1]⟩]⟩, ⟨[⟨[.note 67 1]⟩]⟩]⟩] =
      .ok [⟨60, 1, 0⟩, ⟨67, 1, 0⟩] := rfl
  obtain ⟨h1, h2, h3, h4⟩ := c5_notes_stable_sorted _ _ _ _ h hE
  exact ⟨h, hE, h1, h4⟩
